import Mathlib

set_option maxRecDepth 8000

/-!
Shallow embedding of the hybrid retrieval and reranking engine of the
Capillary-Chatbot repository (src/backend/app/main.py), together with
theorems checking the design-spec claims against it.

Scores, which are Python floats in the source, are modelled as exact
rationals for the pipeline plumbing (search, fusion, rerank, endpoint),
and as real numbers where the BM25 formula with its natural logarithm is
concerned.  External collaborators (the qdrant vector store, the
rank_bm25 scorer, the cross-encoder rerank model, the OpenAI answer
generator) are not part of src/; they enter either as explicit function
parameters or as definitions modelled from the spec, as marked.
-/

namespace Capillary

/-- A retrieval candidate: the dict built by vector_search / bm25_search in
main.py, with fields text, url, title, score, source. -/
structure Candidate (S : Type) where
  text : String
  url : Option String
  title : Option String
  score : S
  source : String
deriving DecidableEq

/-- A reranked candidate: the candidate dict after rerank_locally has added
the rerank_score field. -/
structure RankedContext (S : Type) extends Candidate S where
  rerank_score : S
deriving DecidableEq

/-- The metadata mapping of one record of data/index/bm25_corpus.jsonl. -/
structure Metadata where
  url : Option String
  source_path : Option String
  title : Option String
deriving DecidableEq

/-- One record of the BM25 corpus snapshot (a line of bm25_corpus.jsonl):
a text plus its metadata. -/
structure Doc where
  text : String
  metadata : Metadata
deriving DecidableEq

instance : Inhabited Doc := ⟨⟨"", ⟨none, none, none⟩⟩⟩

/-- One hit returned by the vector store: the payload fields used by
vector_search plus the similarity score. -/
structure QHit where
  text : Option String
  url : Option String
  title : Option String
  score : ℚ
deriving DecidableEq

deriving instance DecidableEq for Except

/-- Python str.split() with no argument: split on whitespace runs,
dropping empty pieces. -/
def tokenize (s : String) : List String :=
  (s.split (fun c => c.isWhitespace)).filter (fun t => t ≠ "")

/-- Python `a or b` on two optional strings, as used for
`d["metadata"].get("url") or d["metadata"].get("source_path")`:
a is kept unless it is falsy (None or the empty string). -/
def pyOrStr (a b : Option String) : Option String :=
  match a with
  | some s => if s = "" then b else some s
  | none => b

/-- Python truthiness filter on an optional string, as used in
`[c.get("url") for c in top_ctx if c.get("url")]`: keeps the value
exactly when it is a non-empty string. -/
def optTruthy (u : Option String) : Option String :=
  match u with
  | some s => if s = "" then none else some s
  | none => none

/-- Modelled from the spec: the external qdrant vector store search
(`qdrant.search` in main.py, not part of src/).  Per the spec's collaborator
contract it takes a result limit and a similarity floor and returns up to
`limit` hits by descending cosine similarity, excluding every hit whose
similarity is below the floor.  The store's contents are abstracted as the
list of its hits for the current query, each already carrying its
similarity score. -/
def qdrantSearch (store : List QHit) (limit : ℕ) (score_threshold : ℚ) : List QHit :=
  ((store.filter (fun h => decide (score_threshold ≤ h.score))).insertionSort
    (fun a b => b.score ≤ a.score)).take limit

/-- vector_search of main.py: query the store with limit k and
score_threshold 0.15, and turn each hit's payload into a candidate dict
(missing text becomes the empty string). -/
def vector_search (store : List QHit) (query : String) (k : ℕ) : List (Candidate ℚ) :=
  ((qdrantSearch store k (15/100)).map (fun h =>
    { text := h.text.getD ""
      url := h.url
      title := h.title
      score := h.score
      source := "vector" }))

/-- bm25_search of main.py, parametric in the external scorer
(`bm25.get_scores`, the rank_bm25 library, not part of src/): compute the
per-document scores for the whitespace-tokenized query, stably sort the
document indices by descending score, keep the first k, and build a
candidate from each selected document and its score. -/
def bm25_search {S : Type} [LinearOrder S] [Inhabited S] (docs : List Doc)
    (getScores : List String → List S) (query : String) (k : ℕ) : List (Candidate S) :=
  let scores := getScores (tokenize query)
  let top_idx := ((List.range scores.length).insertionSort
    (fun i j => scores.getD j default ≤ scores.getD i default)).take k
  top_idx.map (fun i =>
    let d := docs.getD i default
    { text := d.text
      url := pyOrStr d.metadata.url d.metadata.source_path
      title := d.metadata.title
      score := scores.getD i default
      source := "bm25" })

/-- The dedup key of hybrid_retrieve: `(r["text"][:64], r.get("url"))`. -/
def mergeKey {S : Type} (c : Candidate S) : String × Option String :=
  (c.text.take 64, c.url)

/-- The seen-set deduplication loop of hybrid_retrieve (and, with `key` the
identity, of dict.fromkeys in the chat endpoint, which also keeps the first
occurrence of each value): walk the list, skipping any element whose key
was already seen. -/
def dedupGo {α β : Type} [DecidableEq β] (key : α → β) (seen : List β) :
    List α → List α
  | [] => []
  | r :: rest =>
    if key r ∈ seen then dedupGo key seen rest
    else r :: dedupGo key (key r :: seen) rest

/-- The fusion step of hybrid_retrieve in main.py: concatenate vector
results then lexical results, deduplicate by `mergeKey` keeping first
occurrences, and truncate to `max(k*2, 10)`. -/
def hybrid_merge {S : Type} (vec_results bm25_results : List (Candidate S))
    (k : ℕ) : List (Candidate S) :=
  (dedupGo mergeKey [] (vec_results ++ bm25_results)).take (max (k * 2) 10)

/-- hybrid_retrieve of main.py: vector search and lexical search, then the
fusion step. -/
def hybrid_retrieve (store : List QHit) (docs : List Doc)
    (getScores : List String → List ℚ) (query : String) (k : ℕ) :
    List (Candidate ℚ) :=
  hybrid_merge (vector_search store query k) (bm25_search docs getScores query k) k

/-- rerank_locally of main.py, parametric in the external batched scorer
(`reranker_model.predict`, the cross-encoder, not part of src/), which can
fail; the source has no exception handler, so a scorer failure propagates.
On success the (candidate, score) pairs are stably sorted by descending
score — Python's sorted with reverse=True keeps tied elements in input
order — truncated to top_n, and each kept candidate gains its
rerank_score. -/
def rerank_locally {S : Type} [LinearOrder S]
    (predict : List (String × String) → Except Unit (List S))
    (query : String) (docs_in : List (Candidate S)) (top_n : ℕ) :
    Except Unit (List (RankedContext S)) :=
  if docs_in.isEmpty then Except.ok []
  else
    match predict (docs_in.map (fun d => (query, d.text))) with
    | Except.error e => Except.error e
    | Except.ok scores =>
      let ranked := (docs_in.zip scores).insertionSort (fun a b => b.2 ≤ a.2)
      Except.ok ((ranked.take top_n).map
        (fun p => { toCandidate := p.1, rerank_score := p.2 }))

/-- The citation-source derivation of the chat endpoint:
`list(dict.fromkeys([c.get("url") for c in top_ctx if c.get("url")]))` —
the truthy urls of the contexts in order, with later duplicates removed
(dict.fromkeys keeps the first occurrence of each key, in order). -/
def chat_sources (top_ctx : List (RankedContext ℚ)) : List String :=
  dedupGo (fun u => u) [] (top_ctx.filterMap (fun c => optTruthy c.url))

/-- The chat endpoint of main.py, parametric in the external answer
generator (`generate_answer` via OpenAI, out of core scope) and the
rerank scorer: hybrid retrieval, local rerank with top_n = 6, truncation
to 6, answer generation, citation-source derivation.  A rerank failure
propagates (there is no handler in the source). -/
def chat (gen : String → List (RankedContext ℚ) → String)
    (predict : List (String × String) → Except Unit (List ℚ))
    (store : List QHit) (docs : List Doc) (getScores : List String → List ℚ)
    (query : String) (k : ℕ) : Except Unit (String × List String) :=
  let candidates := hybrid_retrieve store docs getScores query k
  match rerank_locally predict query candidates 6 with
  | Except.error e => Except.error e
  | Except.ok reranked =>
    let top_ctx := reranked.take 6
    Except.ok (gen query top_ctx, chat_sources top_ctx)

/-- BM25 saturation constant k1 of the spec. -/
noncomputable def bm25K1 : ℝ := 3 / 2

/-- BM25 length-normalization constant b of the spec. -/
noncomputable def bm25B : ℝ := 3 / 4

/-- Modelled from the spec: the IDF of the rank_bm25 scorer (not part of
src/), IDF(t) = ln((N - n(t) + 0.5) / (n(t) + 0.5) + 1) where N is the
corpus size and n(t) the number of documents containing t. -/
noncomputable def bm25IdfR (tok : List (List String)) (t : String) : ℝ :=
  let n : ℝ := ((tok.filter (fun d => decide (t ∈ d))).length : ℕ)
  Real.log (((tok.length : ℝ) - n + 1/2) / (n + 1/2) + 1)

/-- Modelled from the spec: the BM25 score of the rank_bm25 scorer (not
part of src/) for one document D and query Q, the sum over query terms t of
IDF(t) * (f(t,D)*(k1+1)) / (f(t,D) + k1*(1 - b + b*|D|/avgdl)). -/
noncomputable def bm25ScoreR (tok : List (List String)) (q : List String)
    (d : List String) : ℝ :=
  let avgdl : ℝ := ((tok.map (fun c => c.length)).sum : ℕ) / (tok.length : ℝ)
  (q.map (fun t =>
    let f : ℝ := (d.count t : ℕ)
    bm25IdfR tok t * (f * (bm25K1 + 1)) /
      (f + bm25K1 * (1 - bm25B + bm25B * (d.length : ℝ) / avgdl)))).sum

/-- Modelled from the spec: `bm25.get_scores` of rank_bm25 (not part of
src/) — one BM25 score per corpus document, in corpus order. -/
noncomputable def bm25_get_scoresR (tok : List (List String)) (q : List String) :
    List ℝ :=
  tok.map (bm25ScoreR tok q)

/-- bm25_search instantiated with the spec-modelled scorer over the
whitespace-tokenized corpus, as main.py wires it at import time. -/
noncomputable def bm25_searchFull (docs : List Doc) (query : String) (k : ℕ) :
    List (Candidate ℝ) :=
  bm25_search docs
    (fun qtoks => bm25_get_scoresR (docs.map (fun d => tokenize d.text)) qtoks)
    query k

/-- c is an occurrence in l that no earlier element of l shares a key with:
the "first occurrence under that key" of the fusion step. -/
def FirstOccBy {α β : Type} (key : α → β) (c : α) (l : List α) : Prop :=
  ∃ t₁ t₂, l = t₁ ++ c :: t₂ ∧ ∀ x ∈ t₁, key x ≠ key c

/-- A lexical candidate literal used by concrete witnesses below. -/
def mkB (t : String) (s : ℚ) : Candidate ℚ :=
  { text := t, url := none, title := none, score := s, source := "bm25" }

/-- A vector candidate literal used by concrete witnesses below. -/
def mkV (t : String) (s : ℚ) : Candidate ℚ :=
  { text := t, url := none, title := none, score := s, source := "vector" }

section DedupLemmas

variable {α β : Type} [DecidableEq β] (key : α → β)

/-- The dedup loop returns a sublist of its input: kept elements appear in
their original relative order. -/
theorem dedupGo_sublist (seen : List β) (l : List α) :
    (dedupGo key seen l).Sublist l := by
  induction l generalizing seen with
  | nil => simp [dedupGo]
  | cons r rest ih =>
    rw [dedupGo]
    split
    · exact (ih seen).cons r
    · exact (ih (key r :: seen)).cons₂ r

/-- No element surviving the dedup loop has a key that was already seen. -/
theorem key_not_mem_seen_of_mem_dedupGo {seen : List β} {l : List α} {c : α}
    (h : c ∈ dedupGo key seen l) : key c ∉ seen := by
  induction l generalizing seen with
  | nil => simp [dedupGo] at h
  | cons r rest ih =>
    rw [dedupGo] at h
    split at h
    · exact ih h
    · rcases List.mem_cons.mp h with rfl | hmem
      · assumption
      · intro hs
        exact ih hmem (List.mem_cons.mpr (Or.inr hs))

/-- The keys of the dedup loop's output are pairwise distinct. -/
theorem nodup_map_key_dedupGo (seen : List β) (l : List α) :
    ((dedupGo key seen l).map key).Nodup := by
  induction l generalizing seen with
  | nil => simp [dedupGo]
  | cons r rest ih =>
    rw [dedupGo]
    split
    · exact ih seen
    · rw [List.map_cons, List.nodup_cons]
      refine ⟨fun hmem => ?_, ih (key r :: seen)⟩
      rcases List.mem_map.mp hmem with ⟨c, hc, hkey⟩
      exact key_not_mem_seen_of_mem_dedupGo key hc (hkey ▸ List.mem_cons_self _ _)

/-- Every element surviving the dedup loop is the first occurrence of its
key in the input list. -/
theorem firstOccBy_of_mem_dedupGo {seen : List β} {l : List α} {c : α}
    (h : c ∈ dedupGo key seen l) : FirstOccBy key c l := by
  induction l generalizing seen with
  | nil => simp [dedupGo] at h
  | cons r rest ih =>
    rw [dedupGo] at h
    split at h
    · rcases ih h with ⟨t₁, t₂, heq, hne⟩
      refine ⟨r :: t₁, t₂, by rw [heq, List.cons_append], fun x hx => ?_⟩
      rcases List.mem_cons.mp hx with rfl | hx'
      · intro hkey
        exact key_not_mem_seen_of_mem_dedupGo key h (hkey ▸ ‹key x ∈ seen›)
      · exact hne x hx'
    · rcases List.mem_cons.mp h with rfl | hmem
      · exact ⟨[], rest, rfl, by simp⟩
      · rcases ih hmem with ⟨t₁, t₂, heq, hne⟩
        refine ⟨r :: t₁, t₂, by rw [heq, List.cons_append], fun x hx => ?_⟩
        rcases List.mem_cons.mp hx with rfl | hx'
        · intro hkey
          exact key_not_mem_seen_of_mem_dedupGo key hmem
            (hkey ▸ List.mem_cons_self _ _)
        · exact hne x hx'

/-- On an input whose keys are pairwise distinct and disjoint from the seen
set, the dedup loop is the identity. -/
theorem dedupGo_eq_self {seen : List β} {l : List α}
    (h1 : ∀ x ∈ l, key x ∉ seen) (h2 : (l.map key).Nodup) :
    dedupGo key seen l = l := by
  induction l generalizing seen with
  | nil => simp [dedupGo]
  | cons r rest ih =>
    rw [List.map_cons, List.nodup_cons] at h2
    rw [dedupGo]
    rw [if_neg (h1 r (List.mem_cons_self _ _))]
    congr 1
    refine ih (fun x hx => ?_) h2.2
    intro hmem
    rcases List.mem_cons.mp hmem with hkey | hseen
    · exact h2.1 (hkey ▸ List.mem_map_of_mem key hx)
    · exact h1 x (List.mem_cons.mpr (Or.inr hx)) hseen

/-- Every input element whose key was not yet seen is represented in the
dedup loop's output by some element with the same key. -/
theorem exists_mem_dedupGo_of_mem {seen : List β} {l : List α} {x : α}
    (hx : x ∈ l) (hs : key x ∉ seen) :
    ∃ c ∈ dedupGo key seen l, key c = key x := by
  induction l generalizing seen with
  | nil => simp at hx
  | cons r rest ih =>
    rw [dedupGo]
    split
    · rcases List.mem_cons.mp hx with rfl | hx'
      · exact absurd ‹key x ∈ seen› hs
      · exact ih hx' hs
    · rcases List.mem_cons.mp hx with rfl | hx'
      · exact ⟨x, List.mem_cons_self _ _, rfl⟩
      · by_cases hkey : key x = key r
        · exact ⟨r, List.mem_cons_self _ _, hkey.symm⟩
        · rcases ih hx' (fun hmem => (List.mem_cons.mp hmem).elim hkey hs)
            with ⟨c, hc, hck⟩
          exact ⟨c, List.mem_cons.mpr (Or.inr hc), hck⟩

/-- In a list whose keys are pairwise distinct, at most one element carries
any given key. -/
theorem countP_key_le_one (l : List α) (K : β) (h : (l.map key).Nodup) :
    l.countP (fun c => decide (key c = K)) ≤ 1 := by
  induction l with
  | nil => simp
  | cons a t ih =>
    rw [List.map_cons, List.nodup_cons] at h
    rw [List.countP_cons]
    by_cases hk : key a = K
    · have hz : t.countP (fun c => decide (key c = K)) = 0 := by
        rw [List.countP_eq_zero]
        intro c hc hck
        rw [decide_eq_true_iff] at hck
        exact h.1 (hk ▸ hck ▸ List.mem_map_of_mem key hc)
      simp [hz, hk]
    · simp [hk, ih h.2]

end DedupLemmas

/-- The identity-keyed dedup loop keeps every unseen input element. -/
theorem mem_dedupGo_id {α : Type} [DecidableEq α] {seen l : List α} {x : α}
    (hx : x ∈ l) (hs : x ∉ seen) : x ∈ dedupGo (fun u => u) seen l := by
  rcases exists_mem_dedupGo_of_mem (fun u => u) hx hs with ⟨c, hc, hck⟩
  exact hck ▸ hc

/-- The identity-keyed dedup loop lists its elements in the order of their
first occurrence in the input: indices of first occurrences increase. -/
theorem pairwise_indexOf_dedupGo_id {α : Type} [DecidableEq α]
    (seen l : List α) :
    (dedupGo (fun u => u) seen l).Pairwise
      (fun x y => l.indexOf x < l.indexOf y) := by
  induction l generalizing seen with
  | nil => simp [dedupGo]
  | cons a t ih =>
    rw [dedupGo]
    split
    · refine (ih seen).imp_of_mem (fun {x y} hx hy hlt => ?_)
      have hxa : x ≠ a := fun h =>
        key_not_mem_seen_of_mem_dedupGo (fun u => u) hx (h ▸ ‹a ∈ seen›)
      have hya : y ≠ a := fun h =>
        key_not_mem_seen_of_mem_dedupGo (fun u => u) hy (h ▸ ‹a ∈ seen›)
      rw [List.indexOf_cons_ne t (Ne.symm hxa), List.indexOf_cons_ne t (Ne.symm hya)]
      exact Nat.succ_lt_succ hlt
    · refine List.Pairwise.cons (fun y hy => ?_) ?_
      · have hya : y ≠ a := fun h =>
          key_not_mem_seen_of_mem_dedupGo (fun u => u) hy
            (h ▸ List.mem_cons_self _ _)
        rw [List.indexOf_cons_self, List.indexOf_cons_ne t (Ne.symm hya)]
        exact Nat.succ_pos _
      · refine (ih (a :: seen)).imp_of_mem (fun {x y} hx hy hlt => ?_)
        have hxa : x ≠ a := fun h =>
          key_not_mem_seen_of_mem_dedupGo (fun u => u) hx
            (h ▸ List.mem_cons_self _ _)
        have hya : y ≠ a := fun h =>
          key_not_mem_seen_of_mem_dedupGo (fun u => u) hy
            (h ▸ List.mem_cons_self _ _)
        rw [List.indexOf_cons_ne t (Ne.symm hxa), List.indexOf_cons_ne t (Ne.symm hya)]
        exact Nat.succ_lt_succ hlt

/-- The truthiness filter keeps exactly the non-empty urls. -/
theorem optTruthy_eq_some {o : Option String} {u : String} :
    optTruthy o = some u ↔ o = some u ∧ u ≠ "" := by
  cases o with
  | none => simp [optTruthy]
  | some s =>
    by_cases hs : s = ""
    · subst hs
      simp only [optTruthy, if_pos rfl]
      constructor
      · intro h; cases h
      · rintro ⟨h, hne⟩
        exact absurd (Option.some_injective _ h).symm hne
    · simp only [optTruthy, if_neg hs, Option.some_inj]
      constructor
      · rintro rfl; exact ⟨rfl, hs⟩
      · rintro ⟨h, _⟩; exact h

/-- Generic shape of bm25_search output size: one candidate per selected
index, k indices requested, one score per corpus entry available. -/
theorem length_bm25_search {S : Type} [LinearOrder S] [Inhabited S]
    (docs : List Doc) (gs : List String → List S) (query : String) (k : ℕ) :
    (bm25_search docs gs query k).length = min k (gs (tokenize query)).length := by
  simp [bm25_search, List.length_take]

/-- Every candidate built by bm25_search takes its text and score from one
and the same corpus position. -/
theorem mem_bm25_search {S : Type} [LinearOrder S] [Inhabited S]
    {docs : List Doc} {gs : List String → List S} {query : String} {k : ℕ}
    {c : Candidate S} (hc : c ∈ bm25_search docs gs query k) :
    ∃ i, ∃ hi : i < (gs (tokenize query)).length,
      c.text = (docs.getD i default).text ∧
      c.score = (gs (tokenize query)).get ⟨i, hi⟩ := by
  rw [bm25_search] at hc
  rcases List.mem_map.mp hc with ⟨i, hi_mem, rfl⟩
  have hi : i < (gs (tokenize query)).length := by
    have h1 := List.mem_of_mem_take hi_mem
    have h2 := (List.mem_insertionSort _).mp h1
    exact List.mem_range.mp h2
  refine ⟨i, hi, rfl, ?_⟩
  rw [List.get_eq_getElem, List.getD_eq_getElem _ _ hi]

/-- C1: every candidate returned by the lexical search carries, as its
score, exactly the BM25 value of its own document — the sum over query
terms t of IDF(t) * (f(t,D)*(k1+1)) / (f(t,D) + k1*(1 - b + b*|D|/avgdl))
with k1 = 3/2, b = 3/4 and IDF(t) = ln((N - n(t) + 0.5)/(n(t) + 0.5) + 1),
over the whitespace-tokenized corpus and query. -/
theorem bm25_scores_match_formula (docs : List Doc) (query : String) (k : ℕ) :
    (bm25_searchFull docs query k).Forall (fun c =>
      ∃ i, ∃ hi : i < docs.length,
        c.text = (docs.get ⟨i, hi⟩).text ∧
        c.score = bm25ScoreR (docs.map (fun d => tokenize d.text))
          (tokenize query) (tokenize (docs.get ⟨i, hi⟩).text)) := by
  rw [List.forall_iff_forall_mem]
  intro c hc
  rw [bm25_searchFull] at hc
  rcases mem_bm25_search hc with ⟨i, hi, htext, hscore⟩
  have hlen : (bm25_get_scoresR (docs.map (fun d => tokenize d.text))
      (tokenize query)).length = docs.length := by
    simp [bm25_get_scoresR]
  have hid : i < docs.length := by
    have := hi; rwa [hlen] at this
  refine ⟨i, hid, ?_, ?_⟩
  · rw [htext, List.getD_eq_getElem _ _ hid, List.get_eq_getElem]
  · rw [hscore, List.get_eq_getElem]
    simp only [bm25_get_scoresR, List.getElem_map, List.get_eq_getElem]

/-- C6: no hit below the 0.15 similarity floor ever survives into the
vector search's candidate list. -/
theorem vector_search_respects_threshold (store : List QHit) (query : String)
    (k : ℕ) :
    (vector_search store query k).Forall (fun c => (15/100 : ℚ) ≤ c.score) := by
  rw [List.forall_iff_forall_mem]
  intro c hc
  rcases List.mem_map.mp hc with ⟨h, hmem, rfl⟩
  rw [qdrantSearch] at hmem
  have h1 := List.mem_of_mem_take hmem
  have h2 := (List.mem_insertionSort _).mp h1
  have h3 := (List.mem_filter.mp h2).2
  exact of_decide_eq_true h3

/-- C7: on an empty candidate list the reranker returns the empty list
immediately, whatever the scoring model would do — the model is never
consulted (the result is the same for every predict function, including a
failing one). -/
theorem rerank_empty_without_model {S : Type} [LinearOrder S]
    (predict : List (String × String) → Except Unit (List S))
    (query : String) (top_n : ℕ) :
    rerank_locally predict query [] top_n = Except.ok [] := rfl

/-- C10: the lexical search always returns exactly min(k, corpus size)
candidates, whatever the query — zero-scored documents are kept to fill
the top k, with no minimum-score threshold. -/
theorem bm25_search_count (docs : List Doc) (query : String) (k : ℕ) :
    (bm25_searchFull docs query k).length = min k docs.length := by
  rw [bm25_searchFull, length_bm25_search]
  congr 1
  simp [bm25_get_scoresR]

/-- C2: observed behavior at a failing input — with a non-empty fused
candidate list and a failing rerank scorer, the chat endpoint fails
outright (the scorer's error propagates) instead of returning the fused
candidates truncated to top_n. -/
theorem chat_fails_when_rerank_fails :
    hybrid_retrieve [] [⟨"hello world", ⟨some "u", none, none⟩⟩]
      (fun _ => [1]) "q" 1 ≠ [] ∧
    chat (fun _ _ => "") (fun _ => Except.error ()) []
      [⟨"hello world", ⟨some "u", none, none⟩⟩] (fun _ => [1]) "q" 1 =
      Except.error () :=
  ⟨by decide, rfl⟩

/-- Vector candidates for the truncation counterexample: ten distinct keys
followed by a candidate with key ("z", none). -/
def cexVec : List (Candidate ℚ) :=
  [mkV "a" 1, mkV "b" 1, mkV "c" 1, mkV "d" 1, mkV "e" 1,
   mkV "f" 1, mkV "g" 1, mkV "h" 1, mkV "i" 1, mkV "j" 1, mkV "z" 1]

/-- Lexical candidate for the truncation counterexample: a second candidate
with key ("z", none), differing in source and score. -/
def cexLex : List (Candidate ℚ) := [mkB "z" 2]

/-- C3 counterexample: two candidates sharing the dedup key need not
collapse to exactly one entry of the fusion output — with k = 1 the cap
max(2k, 10) = 10 can cut off their single deduplicated representative, so
the output holds zero entries with that key. -/
theorem hybrid_merge_shared_key_zero_entries :
    mkV "z" 1 ∈ cexVec ++ cexLex ∧ mkB "z" 2 ∈ cexVec ++ cexLex ∧
    mergeKey (mkV "z" 1) = mergeKey (mkB "z" 2) ∧
    (hybrid_merge cexVec cexLex 1).countP
      (fun c => decide (mergeKey c = mergeKey (mkV "z" 1))) = 0 := by
  decide

/-- C3 (amended): two candidates sharing the dedup key collapse to exactly
one entry of the deduplicated concatenation, hence to at most one entry of
the truncated fusion output, and any surviving entry with that key is the
first occurrence of the key in the vector-then-lexical concatenation,
regardless of score or source. -/
theorem hybrid_merge_dedup_key (v l : List (Candidate ℚ)) (k : ℕ)
    (a b : Candidate ℚ) (ha : a ∈ v ++ l) (hb : b ∈ v ++ l)
    (hab : mergeKey a = mergeKey b) :
    (dedupGo mergeKey [] (v ++ l)).countP
      (fun c => decide (mergeKey c = mergeKey a)) = 1 ∧
    (hybrid_merge v l k).countP
      (fun c => decide (mergeKey c = mergeKey a)) ≤ 1 ∧
    ∀ c ∈ hybrid_merge v l k, mergeKey c = mergeKey a →
      FirstOccBy mergeKey c (v ++ l) := by
  have hone : (dedupGo mergeKey [] (v ++ l)).countP
      (fun c => decide (mergeKey c = mergeKey a)) = 1 := by
    have hle := countP_key_le_one mergeKey (dedupGo mergeKey [] (v ++ l))
      (mergeKey a) (nodup_map_key_dedupGo mergeKey [] (v ++ l))
    have hpos : 0 < (dedupGo mergeKey [] (v ++ l)).countP
        (fun c => decide (mergeKey c = mergeKey a)) := by
      rcases exists_mem_dedupGo_of_mem mergeKey ha (List.not_mem_nil _)
        with ⟨c, hc, hck⟩
      exact List.countP_pos_iff.mpr ⟨c, hc, decide_eq_true hck⟩
    omega
  refine ⟨hone, ?_, ?_⟩
  · calc (hybrid_merge v l k).countP (fun c => decide (mergeKey c = mergeKey a))
        ≤ (dedupGo mergeKey [] (v ++ l)).countP
            (fun c => decide (mergeKey c = mergeKey a)) :=
          (List.take_sublist _ _).countP_le _
      _ = 1 := hone
  · intro c hc _
    exact firstOccBy_of_mem_dedupGo mergeKey (List.mem_of_mem_take hc)

/-- C3 witness: the amended dedup-key property evaluated on a concrete
two-candidate input sharing the key ("a", none). -/
theorem hybrid_merge_dedup_key_witness :
    (dedupGo mergeKey [] ([mkV "a" 1] ++ [mkB "a" 2])).countP
      (fun c => decide (mergeKey c = mergeKey (mkV "a" 1))) = 1 ∧
    (hybrid_merge [mkV "a" 1] [mkB "a" 2] 1).countP
      (fun c => decide (mergeKey c = mergeKey (mkV "a" 1))) ≤ 1 ∧
    FirstOccBy mergeKey (mkV "a" 1) ([mkV "a" 1] ++ [mkB "a" 2]) := by
  have h := hybrid_merge_dedup_key [mkV "a" 1] [mkB "a" 2] 1
    (mkV "a" 1) (mkB "a" 2) (by decide) (by decide) (by decide)
  exact ⟨h.1, h.2.1, h.2.2 (mkV "a" 1) (by decide) (by decide)⟩

/-- C4: for k >= 1 the fusion output has at most max(2k, 10) entries, is a
sublist of the vector-then-lexical concatenation (so relative order is the
concatenation order), and every entry is the first occurrence of its dedup
key in that concatenation. -/
theorem hybrid_merge_bound_and_order (v l : List (Candidate ℚ)) (k : ℕ)
    (hk : 1 ≤ k) :
    (hybrid_merge v l k).length ≤ max (2 * k) 10 ∧
    (hybrid_merge v l k).Sublist (v ++ l) ∧
    (hybrid_merge v l k).Forall (fun c => FirstOccBy mergeKey c (v ++ l)) := by
  refine ⟨?_, ?_, ?_⟩
  · rw [hybrid_merge, Nat.mul_comm]
    exact List.length_take_le _ _
  · exact (List.take_sublist _ _).trans (dedupGo_sublist mergeKey [] _)
  · rw [List.forall_iff_forall_mem]
    intro c hc
    exact firstOccBy_of_mem_dedupGo mergeKey (List.mem_of_mem_take hc)

/-- C4 witness: the fusion bound and ordering property evaluated at a
concrete pair of candidate lists with k = 1. -/
theorem hybrid_merge_bound_and_order_witness :
    (hybrid_merge [mkV "a" 1] [mkB "b" 2] 1).length ≤ max (2 * 1) 10 ∧
    (hybrid_merge [mkV "a" 1] [mkB "b" 2] 1).Sublist
      ([mkV "a" 1] ++ [mkB "b" 2]) ∧
    (hybrid_merge [mkV "a" 1] [mkB "b" 2] 1).Forall
      (fun c => FirstOccBy mergeKey c ([mkV "a" 1] ++ [mkB "b" 2])) :=
  hybrid_merge_bound_and_order [mkV "a" 1] [mkB "b" 2] 1 (by decide)

/-- C9: merging the fusion output with an empty second list and the same k
returns it unchanged — the merge/deduplication step is idempotent. -/
theorem hybrid_merge_idempotent (v l : List (Candidate ℚ)) (k : ℕ)
    (hk : 1 ≤ k) :
    hybrid_merge (hybrid_merge v l k) [] k = hybrid_merge v l k := by
  have hsub : (hybrid_merge v l k).Sublist (dedupGo mergeKey [] (v ++ l)) :=
    List.take_sublist _ _
  have hnodup : ((hybrid_merge v l k).map mergeKey).Nodup :=
    (nodup_map_key_dedupGo mergeKey [] (v ++ l)).sublist (hsub.map mergeKey)
  have hlen : (hybrid_merge v l k).length ≤ max (k * 2) 10 :=
    List.length_take_le _ _
  conv_lhs => rw [hybrid_merge]
  rw [List.append_nil, dedupGo_eq_self mergeKey (by simp) hnodup,
    List.take_of_length_le hlen]

/-- C9 witness: idempotence of the fusion step evaluated at a concrete pair
of candidate lists with k = 1. -/
theorem hybrid_merge_idempotent_witness :
    hybrid_merge (hybrid_merge [mkV "c" 1] [mkB "d" 2] 1) [] 1 =
      hybrid_merge [mkV "c" 1] [mkB "d" 2] 1 :=
  hybrid_merge_idempotent [mkV "c" 1] [mkB "d" 2] 1 (by decide)

/-- C5: on any non-empty candidate list whose batched scoring call
succeeds, the reranker returns the stably descending-sorted list truncated
to top_n: the output is the mapped take of the insertion sort by weakly
descending score, its length is at most top_n, its rerank scores weakly
decrease along it, and any two scored pairs already in weakly descending
order in the input — in particular tied pairs, in input order — stay in
that relative order in the sorted list (stability). -/
theorem rerank_sorted_stable (query : String) (docs_in : List (Candidate ℚ))
    (scores : List ℚ)
    (predict : List (String × String) → Except Unit (List ℚ)) (top_n : ℕ)
    (hne : docs_in ≠ [])
    (hp : predict (docs_in.map (fun d => (query, d.text))) =
      Except.ok scores) :
    rerank_locally predict query docs_in top_n =
      Except.ok ((((docs_in.zip scores).insertionSort
          (fun a b => b.2 ≤ a.2)).take top_n).map
        (fun p => { toCandidate := p.1, rerank_score := p.2 })) ∧
    ((((docs_in.zip scores).insertionSort
        (fun a b => b.2 ≤ a.2)).take top_n).map
      (fun p => ({ toCandidate := p.1, rerank_score := p.2 } :
        RankedContext ℚ))).length ≤ top_n ∧
    ((((docs_in.zip scores).insertionSort
        (fun a b => b.2 ≤ a.2)).take top_n).map
      (fun p => ({ toCandidate := p.1, rerank_score := p.2 } :
        RankedContext ℚ))).Pairwise
      (fun x y => y.rerank_score ≤ x.rerank_score) ∧
    ∀ a b : Candidate ℚ × ℚ, b.2 ≤ a.2 →
      [a, b].Sublist (docs_in.zip scores) →
      [a, b].Sublist ((docs_in.zip scores).insertionSort
        (fun a b => b.2 ≤ a.2)) := by
  have hemp : docs_in.isEmpty = false := List.isEmpty_eq_false.mpr hne
  refine ⟨?_, ?_, ?_, ?_⟩
  · simp only [rerank_locally, hemp, Bool.false_eq_true, if_false, hp]
  · have h := List.length_take_le top_n
      ((docs_in.zip scores).insertionSort (fun a b => b.2 ≤ a.2))
    simpa using h
  · haveI ht : IsTotal (Candidate ℚ × ℚ) (fun a b => b.2 ≤ a.2) :=
      ⟨fun a b => le_total b.2 a.2⟩
    haveI htr : IsTrans (Candidate ℚ × ℚ) (fun a b => b.2 ≤ a.2) :=
      ⟨fun _ _ _ hab hbc => le_trans hbc hab⟩
    have hs := List.sorted_insertionSort
      (fun (a b : Candidate ℚ × ℚ) => b.2 ≤ a.2) (docs_in.zip scores)
    have hs2 := List.Pairwise.sublist (List.take_sublist top_n _) hs
    exact List.Pairwise.map _ (fun a b h => h) hs2
  · intro a b hab hsub
    exact List.pair_sublist_insertionSort hab hsub

/-- C5 witness: the rerank property evaluated at a concrete two-candidate
input with tied scores — the tie keeps the input order. -/
theorem rerank_sorted_stable_witness :
    rerank_locally (fun _ => Except.ok [(5:ℚ), 5]) "q"
        [mkB "a" 0, mkB "b" 0] 2 =
      Except.ok [⟨mkB "a" 0, 5⟩, ⟨mkB "b" 0, 5⟩] ∧
    [(mkB "a" 0, (5:ℚ)), (mkB "b" 0, 5)].Sublist
      (([mkB "a" 0, mkB "b" 0].zip [(5:ℚ), 5]).insertionSort
        (fun a b => b.2 ≤ a.2)) := by
  have h := rerank_sorted_stable "q" [mkB "a" 0, mkB "b" 0] [5, 5]
    (fun _ => Except.ok [5, 5]) 2 (by decide) rfl
  constructor
  · exact h.1.trans (by decide)
  · exact h.2.2.2 (mkB "a" 0, 5) (mkB "b" 0, 5) (le_refl 5) (by decide)

/-- C8: the citation list derived from the ranked contexts holds exactly
the distinct non-empty urls of those contexts — a url is listed iff some
context carries it non-empty, no url is listed twice, and the listing
follows the order of first occurrence in the contexts' url sequence. -/
theorem chat_sources_distinct_ordered (ctxs : List (RankedContext ℚ)) :
    (chat_sources ctxs).Nodup ∧
    (∀ u : String,
      u ∈ chat_sources ctxs ↔ ∃ c ∈ ctxs, c.url = some u ∧ u ≠ "") ∧
    (chat_sources ctxs).Pairwise (fun x y =>
      (ctxs.filterMap (fun c => optTruthy c.url)).indexOf x <
        (ctxs.filterMap (fun c => optTruthy c.url)).indexOf y) := by
  refine ⟨?_, ?_, ?_⟩
  · have h := nodup_map_key_dedupGo (fun u => u) []
      (ctxs.filterMap (fun c => optTruthy c.url))
    rwa [List.map_id'] at h
  · intro u
    constructor
    · intro hu
      have hmem : u ∈ ctxs.filterMap (fun c => optTruthy c.url) :=
        (dedupGo_sublist (fun u => u) [] _).subset hu
      rcases List.mem_filterMap.mp hmem with ⟨c, hc, hopt⟩
      rcases optTruthy_eq_some.mp hopt with ⟨hurl, hne⟩
      exact ⟨c, hc, hurl, hne⟩
    · rintro ⟨c, hc, hurl, hne⟩
      have hmem : u ∈ ctxs.filterMap (fun c => optTruthy c.url) :=
        List.mem_filterMap.mpr ⟨c, hc, optTruthy_eq_some.mpr ⟨hurl, hne⟩⟩
      exact mem_dedupGo_id hmem (List.not_mem_nil _)
  · exact pairwise_indexOf_dedupGo_id [] _

end Capillary
